import Mathlib

/-!
# A shallow embedding of `PersistentCache`

This file embeds the class `PersistentCache` from
`anylabeling/services/auto_labeling/persistent_cache.py` and proves the
specified properties of its operations.

Modelling conventions:

* The cache directory is a finite association list from file names to file
  contents.  File names are modelled structurally: `FName.entry h` stands for
  `embedding_<h>.pkl`, `FName.tmp h` for `embedding_<h>.tmp` (the temporary
  file `put` writes before its atomic rename), and `FName.meta` for
  `metadata.pkl`.  The md5 hex digest of `_get_cache_key` is modelled as an
  injective encoding of the key string; determinism and collision-freedom are
  the only properties of the digest the code relies on.
* A file's bytes are modelled at the level of detail `pickle` needs:
  either a well-formed pickle of some object (`Content.ok`) — a producer
  value `PVal.val v` or a metadata dictionary `PVal.dict m`, the only two
  object shapes this module ever writes — or bytes on which `pickle.load`
  raises (`Content.corrupt`).  Serialization followed by deserialization is
  the identity on the pickled object.
* Timestamps (`time.time()` values and file modification times) are modelled
  as naturals supplied by the caller (`now`); each operation receives the
  current clock value explicitly.
* Environment failures that the code guards with `try`/`except` are injected
  explicitly: `put` takes a `PutFailure` saying which step of the write (if
  any) raises, `get` takes `unlinkOk` saying whether the `unlink` in its
  corruption branch succeeds, and `_cleanup_old_files` / `clear` take the
  list of file names whose `unlink` raises.
* `threading.Lock` serialises the operations; under the lock each operation
  is a sequential state transformer, which is exactly what is embedded here.
-/

namespace PersistentCache

/-- File names in the cache directory, modelled structurally.
`FName.entry h` is `embedding_<h>.pkl`, `FName.tmp h` is `embedding_<h>.tmp`,
`FName.meta` is `metadata.pkl`. -/
inductive FName : Type where
  | entry (hash : String)
  | tmp (hash : String)
  | meta
deriving DecidableEq, Repr

/-- The glob pattern `embedding_*.pkl` used by `_cleanup_old_files`,
`clear` and `get_cache_info`: it matches exactly the entry files
(`embedding_<h>.tmp` ends in `.tmp`, and `metadata.pkl` does not start
with `embedding_`). -/
def matchesGlob : FName → Bool
  | FName.entry _ => true
  | _ => false

/-- The in-memory metadata dictionary `self.metadata`: file name to
last-access timestamp. -/
abbrev Meta : Type := List (FName × Nat)

/-- An object as `pickle` sees it: either a producer value (`put`'s
argument) or a metadata dictionary (`_save_metadata`'s argument). -/
inductive PVal (α : Type) : Type where
  | val (v : α)
  | dict (m : Meta)
deriving DecidableEq, Repr

/-- Bytes of one file: a well-formed pickle of `p`, or bytes on which
`pickle.load` raises. -/
inductive Content (α : Type) : Type where
  | ok (p : PVal α)
  | corrupt
deriving DecidableEq, Repr

/-- What the filesystem knows about one file: its bytes, its size
(`stat().st_size`) and its modification time (`stat().st_mtime`). -/
structure FileInfo (α : Type) : Type where
  content : Content α
  size : Nat
  mtime : Nat
deriving DecidableEq, Repr

/-- The cache directory: an association list from file names to files. -/
abbrev Dir (α : Type) : Type := List (FName × FileInfo α)

/-- Association-list lookup by file name (the filesystem's name lookup and
the dictionary's `get`). -/
def lookupAssoc {β : Type} (n : FName) (l : List (FName × β)) : Option β :=
  (l.find? (fun e => e.1 == n)).map (fun e => e.2)

/-- Association-list deletion by file name (`unlink` / `dict.pop`). -/
def eraseAssoc {β : Type} (n : FName) (l : List (FName × β)) :
    List (FName × β) :=
  l.filter (fun e => e.1 != n)

/-- Association-list upsert by file name (file creation-or-overwrite /
`dict.__setitem__`). -/
def setAssoc {β : Type} (n : FName) (b : β) (l : List (FName × β)) :
    List (FName × β) :=
  (n, b) :: eraseAssoc n l

/-- The state a `PersistentCache` object owns: the directory contents, the
in-memory `self.metadata` dictionary, and `self.max_size_bytes`. -/
structure CacheState (α : Type) : Type where
  files : Dir α
  metadata : Meta
  maxSizeBytes : Nat
deriving DecidableEq, Repr

/-- `_get_cache_key` / `_get_cache_path`: `embedding_<md5(str(key))>.pkl`,
with the md5 hex digest modelled as an injective encoding of the key. -/
def entryName (key : String) : FName := FName.entry key

/-- `cache_path.with_suffix('.tmp')`: `embedding_<md5(str(key))>.tmp`. -/
def tmpName (key : String) : FName := FName.tmp key

/-- `_load_metadata`: if `metadata.pkl` exists, `pickle.load` it and return
the result; any exception (missing file handled by the `exists` check,
unpicklable bytes raising in `pickle.load`) is swallowed and `{}` returned.
A successful `pickle.load` of a non-dictionary object is returned unchanged:
the code performs no type check on the loaded object. -/
def loadMetadata {α : Type} (d : Dir α) : PVal α :=
  match lookupAssoc FName.meta d with
  | some fi =>
    match fi.content with
    | Content.ok p => p
    | Content.corrupt => PVal.dict []
  | none => PVal.dict []

/-- `_save_metadata`: overwrite `metadata.pkl` with a pickle of the current
in-memory dictionary (its own failure is swallowed; the success path is
modelled).  The metadata file's size is irrelevant to the module — it is
never matched by the `embedding_*.pkl` glob — and is modelled as `0`. -/
def saveMeta {α : Type} (now : Nat) (s : CacheState α) : CacheState α :=
  { s with files :=
      setAssoc FName.meta ⟨Content.ok (PVal.dict s.metadata), 0, now⟩ s.files }

/-- One `(file_path, size, access_time)` triple per entry file, in directory
order, as collected by the scan loop of `_cleanup_old_files`:
`access_time = self.metadata.get(file_path.name, file_path.stat().st_mtime)`. -/
def entryTriples {α : Type} (s : CacheState α) : List (FName × Nat × Nat) :=
  (s.files.filter (fun e => matchesGlob e.1)).map
    (fun e => (e.1, e.2.size, (lookupAssoc e.1 s.metadata).getD e.2.mtime))

/-- Summed size of the files matching `embedding_*.pkl` (`total_size`). -/
def totalEntrySize {α : Type} (d : Dir α) : Nat :=
  ((d.filter (fun e => matchesGlob e.1)).map (fun e => e.2.size)).sum

/-- Stable insertion of a triple after every triple with an access time not
above its own. -/
def insertByTime (t : FName × Nat × Nat) :
    List (FName × Nat × Nat) → List (FName × Nat × Nat)
  | [] => [t]
  | u :: us =>
    if u.2.2 ≤ t.2.2 then u :: insertByTime t us else t :: u :: us

/-- `cache_files.sort(key=lambda x: x[2])`: stable sort ascending by access
time.  Python's sort is a stable mergesort; a stable sort by key is unique,
so it is modelled by stable insertion sort (and the spec declares the order
of recency ties not correctness-relevant). -/
def sortByTime (l : List (FName × Nat × Nat)) : List (FName × Nat × Nat) :=
  l.foldl (fun acc t => insertByTime t acc) []

/-- The entry triples sorted ascending by access time (oldest first). -/
def sortedTriples {α : Type} (s : CacheState α) : List (FName × Nat × Nat) :=
  sortByTime (entryTriples s)

/-- The deletion loop of `_cleanup_old_files`.  `total` is `total_size` as
summed before the loop, `removed` is `removed_size`, and the loop breaks as
soon as `total_size - removed_size <= max_size_bytes * 0.8` (the float
multiplication is modelled exactly: `x ≤ 0.8 * m` iff `10 * x ≤ 8 * m`).
A name in `fails` is a file whose `unlink` raises: the exception is
swallowed, the file is skipped — `removed_size` and the metadata record are
untouched — and the loop continues. -/
def evictLoop {α : Type} (fails : List FName) (total maxB : Nat) :
    List (FName × Nat × Nat) → Nat → CacheState α → CacheState α
  | [], _, st => st
  | t :: rest, removed, st =>
    if 10 * ((total : Int) - (removed : Int)) ≤ 8 * (maxB : Int) then st
    else if fails.contains t.1 then
      evictLoop fails total maxB rest removed st
    else
      evictLoop fails total maxB rest (removed + t.2.1)
        { st with files := eraseAssoc t.1 st.files,
                  metadata := eraseAssoc t.1 st.metadata }

/-- `_cleanup_old_files`: scan the entry files; if their summed size exceeds
`max_size_bytes`, delete them oldest-first until the size is at most 80% of
the limit, then persist the index once; otherwise do nothing. -/
def cleanupOldFiles {α : Type} (fails : List FName) (now : Nat)
    (s : CacheState α) : CacheState α :=
  let total := totalEntrySize s.files
  if total > s.maxSizeBytes then
    saveMeta now (evictLoop fails total s.maxSizeBytes (sortedTriples s) 0 s)
  else s

/-- `get`: on a missing entry file return `None`; otherwise `pickle.load`
the file — on success refresh the access time and persist the index, and
return the loaded object; on failure delete the file and its metadata
record (the whole recovery is under one `try`: when the `unlink` raises,
`unlinkOk = false`, the record is not popped either) and return `None`.
The recovery branch does not call `_save_metadata`. -/
def get {α : Type} (unlinkOk : Bool) (now : Nat) (key : String)
    (s : CacheState α) : Option (PVal α) × CacheState α :=
  let name := entryName key
  match lookupAssoc name s.files with
  | none => (none, s)
  | some fi =>
    match fi.content with
    | Content.ok p =>
      (some p, saveMeta now { s with metadata := setAssoc name now s.metadata })
    | Content.corrupt =>
      if unlinkOk then
        (none, { s with files := eraseAssoc name s.files,
                        metadata := eraseAssoc name s.metadata })
      else
        (none, s)

/-- Which step of `put`'s guarded body raises, if any.  `atOpen`: the
`open(temp_path, 'wb')` raises; `atDump`: `pickle.dump` raises after the
temporary file was created; `atMove`: `shutil.move` raises.  In every
failing case the handler finds at most the temporary file to clean up and
removes it (`if temp_path.exists(): temp_path.unlink()`, with the inner
`unlink` modelled on its success path), so the handler's net effect is to
erase the temporary name. -/
inductive PutFailure : Type where
  | ok
  | atOpen
  | atDump
  | atMove
deriving DecidableEq, Repr

/-- `put`: pickle the value into `embedding_<h>.tmp` (size `vsize`), rename
it atomically onto `embedding_<h>.pkl`, refresh the key's access time,
persist the index, and run `_cleanup_old_files`.  On a failure before the
completed rename, the handler erases the temporary file and returns. -/
def put {α : Type} (pfail : PutFailure) (cfails : List FName) (now : Nat)
    (key : String) (v : α) (vsize : Nat) (s : CacheState α) : CacheState α :=
  let ename := entryName key
  let tname := tmpName key
  match pfail with
  | PutFailure.ok =>
    let written : Dir α :=
      setAssoc tname ⟨Content.ok (PVal.val v), vsize, now⟩ s.files
    let moved : Dir α :=
      setAssoc ename ⟨Content.ok (PVal.val v), vsize, now⟩
        (eraseAssoc tname written)
    cleanupOldFiles cfails now
      (saveMeta now
        { s with files := moved, metadata := setAssoc ename now s.metadata })
  | _ => { s with files := eraseAssoc (tmpName key) s.files }

/-- `find`: `self._get_cache_path(key).exists()` under the lock — a pure
existence probe; its embedding reads the state and returns a boolean,
mirroring that the method's body performs no write. -/
def find {α : Type} (key : String) (s : CacheState α) : Bool :=
  (lookupAssoc (entryName key) s.files).isSome

/-- The deletion loop of `clear` over the glob's name list.  The whole loop
runs inside one `try`: the first `unlink` that raises (a name in `fails`)
aborts the pass, returning `false`, with the files already processed
deleted. -/
def clearLoop {α : Type} (fails : List FName) :
    List FName → Dir α → Dir α × Bool
  | [], d => (d, true)
  | n :: rest, d =>
    if fails.contains n then (d, false)
    else clearLoop fails rest (eraseAssoc n d)

/-- `clear`: unlink every file matching `embedding_*.pkl`; then clear the
in-memory dictionary and persist the (now empty) index.  The loop, the
dictionary reset and the save are all inside a single `try`/`except`, so a
raising `unlink` aborts the rest of the pass and the exception is
swallowed. -/
def clear {α : Type} (fails : List FName) (now : Nat) (s : CacheState α) :
    CacheState α :=
  let names := (s.files.filter (fun e => matchesGlob e.1)).map (fun e => e.1)
  match clearLoop fails names s.files with
  | (d, true) => saveMeta now { s with files := d, metadata := [] }
  | (d, false) => { s with files := d }

/-- The result of `get_cache_info`, with the aggregate size kept in bytes
(the dictionary's `size_mb`/`size_gb` fields are that number rescaled). -/
structure CacheInfo : Type where
  filesCount : Nat
  totalBytes : Nat
deriving DecidableEq, Repr

/-- `get_cache_info`: count and summed size of the files matching
`embedding_*.pkl`. -/
def getCacheInfo {α : Type} (s : CacheState α) : CacheInfo :=
  ⟨(s.files.filter (fun e => matchesGlob e.1)).length,
    totalEntrySize s.files⟩

/-- One public operation together with its injected environment failures,
for statements quantifying over whole operations. -/
inductive Op (α : Type) : Type where
  | getOp (unlinkOk : Bool) (key : String)
  | putOp (pfail : PutFailure) (cfails : List FName) (key : String)
      (v : α) (vsize : Nat)
  | clearOp (fails : List FName)

/-- Run one public operation at clock value `now`. -/
def step {α : Type} (now : Nat) : Op α → CacheState α → CacheState α
  | Op.getOp u k, s => (get u now k s).2
  | Op.putOp pf cf k v sz, s => put pf cf now k v sz s
  | Op.clearOp f, s => clear f now s

/-- Summed sizes of a triple list (`removed_size` over those files). -/
def sumSizes (l : List (FName × Nat × Nat)) : Nat :=
  (l.map (fun t => t.2.1)).sum

/-- Erase a list of names in order (repeated `unlink` / `dict.pop`). -/
def eraseListAssoc {β : Type} (ns : List FName) (l : List (FName × β)) :
    List (FName × β) :=
  ns.foldl (fun l n => eraseAssoc n l) l

/-- How many files the deletion loop unlinks on a run with no failing
`unlink`: it walks the sorted list, stopping at the first point where
`total_size - removed_size` has reached the 80% target. -/
def evictCount (total maxB : Nat) :
    List (FName × Nat × Nat) → Nat → Nat
  | [], _ => 0
  | t :: rest, removed =>
    if 10 * ((total : Int) - (removed : Int)) ≤ 8 * (maxB : Int) then 0
    else evictCount total maxB rest (removed + t.2.1) + 1

/-- The names a no-failure eviction pass deletes: the oldest-first prefix
of the sorted entry list forced by the stop condition. -/
def evictedNames {α : Type} (s : CacheState α) : List FName :=
  ((sortedTriples s).take
    (evictCount (totalEntrySize s.files) s.maxSizeBytes
      (sortedTriples s) 0)).map (fun t => t.1)

/-! ## Association-list lemmas -/

theorem lookupAssoc_cons {β : Type} (n : FName) (e : FName × β)
    (l : List (FName × β)) :
    lookupAssoc n (e :: l) = if e.1 = n then some e.2 else lookupAssoc n l := by
  by_cases h : e.1 = n
  · simp [lookupAssoc, List.find?_cons_of_pos, h]
  · simp [lookupAssoc, List.find?_cons_of_neg, h]

theorem lookupAssoc_eraseAssoc {β : Type} (n x : FName)
    (l : List (FName × β)) :
    lookupAssoc n (eraseAssoc x l) =
      if n = x then none else lookupAssoc n l := by
  induction l with
  | nil => by_cases h : n = x <;> simp [eraseAssoc, lookupAssoc, h]
  | cons e l ih =>
    by_cases hx : e.1 = x
    · have : eraseAssoc x (e :: l) = eraseAssoc x l := by
        simp [eraseAssoc, List.filter_cons, hx]
      rw [this, ih, lookupAssoc_cons]
      by_cases hn : n = x
      · simp [hn]
      · have : e.1 ≠ n := by
          intro h; exact hn (by rw [← h, hx])
        simp [hn, this]
    · have : eraseAssoc x (e :: l) = e :: eraseAssoc x l := by
        simp [eraseAssoc, List.filter_cons, hx]
      rw [this, lookupAssoc_cons, lookupAssoc_cons, ih]
      by_cases hn : n = x
      · have h1 : e.1 ≠ n := by rw [hn]; exact hx
        simp [hn, h1, hx]
      · simp [hn]

theorem lookupAssoc_eraseAssoc_sub {β : Type} {n x : FName}
    {l : List (FName × β)} {b : β}
    (h : lookupAssoc n (eraseAssoc x l) = some b) :
    lookupAssoc n l = some b := by
  rw [lookupAssoc_eraseAssoc] at h
  by_cases hn : n = x
  · simp [hn] at h
  · simpa [hn] using h

theorem lookupAssoc_setAssoc_self {β : Type} (n : FName) (b : β)
    (l : List (FName × β)) :
    lookupAssoc n (setAssoc n b l) = some b := by
  simp [setAssoc, lookupAssoc_cons]

theorem lookupAssoc_setAssoc_ne {β : Type} {n x : FName} (b : β)
    (l : List (FName × β)) (h : n ≠ x) :
    lookupAssoc n (setAssoc x b l) = lookupAssoc n l := by
  rw [setAssoc, lookupAssoc_cons, lookupAssoc_eraseAssoc]
  simp [Ne.symm h, h]

/-! ## State-level helper lemmas -/

theorem saveMeta_metadata {α : Type} (now : Nat) (s : CacheState α) :
    (saveMeta now s).metadata = s.metadata := rfl

theorem lookupAssoc_saveMeta {α : Type} {n : FName} (now : Nat)
    (s : CacheState α) (h : n ≠ FName.meta) :
    lookupAssoc n (saveMeta now s).files = lookupAssoc n s.files :=
  lookupAssoc_setAssoc_ne _ _ h

theorem evictLoop_files_sub {α : Type} {n : FName} {fi : FileInfo α}
    (fails : List FName) (total maxB : Nat) :
    ∀ (l : List (FName × Nat × Nat)) (removed : Nat) (st : CacheState α),
      lookupAssoc n (evictLoop fails total maxB l removed st).files = some fi →
      lookupAssoc n st.files = some fi := by
  intro l
  induction l with
  | nil => intro removed st h; exact h
  | cons t rest ih =>
    intro removed st h
    rw [evictLoop] at h
    split at h
    · exact h
    · split at h
      · exact ih _ _ h
      · exact lookupAssoc_eraseAssoc_sub (ih _ _ h)

theorem evictLoop_metadata_sub {α : Type} {n : FName} {ts : Nat}
    (fails : List FName) (total maxB : Nat) :
    ∀ (l : List (FName × Nat × Nat)) (removed : Nat) (st : CacheState α),
      lookupAssoc n (evictLoop fails total maxB l removed st).metadata =
        some ts →
      lookupAssoc n st.metadata = some ts := by
  intro l
  induction l with
  | nil => intro removed st h; exact h
  | cons t rest ih =>
    intro removed st h
    rw [evictLoop] at h
    split at h
    · exact h
    · split at h
      · exact ih _ _ h
      · exact lookupAssoc_eraseAssoc_sub (ih _ _ h)

theorem cleanupOldFiles_files_sub {α : Type} {n : FName} {fi : FileInfo α}
    (fails : List FName) (now : Nat) (s : CacheState α)
    (hn : n ≠ FName.meta)
    (h : lookupAssoc n (cleanupOldFiles fails now s).files = some fi) :
    lookupAssoc n s.files = some fi := by
  rw [cleanupOldFiles] at h
  split at h
  · rw [lookupAssoc_saveMeta _ _ hn] at h
    exact evictLoop_files_sub fails _ _ _ _ _ h
  · exact h

theorem cleanupOldFiles_metadata_sub {α : Type} {n : FName} {ts : Nat}
    (fails : List FName) (now : Nat) (s : CacheState α)
    (h : lookupAssoc n (cleanupOldFiles fails now s).metadata = some ts) :
    lookupAssoc n s.metadata = some ts := by
  rw [cleanupOldFiles] at h
  split at h
  · rw [saveMeta_metadata] at h
    exact evictLoop_metadata_sub fails _ _ _ _ _ h
  · exact h

theorem entryName_ne_meta (key : String) : entryName key ≠ FName.meta :=
  fun h => FName.noConfusion h

theorem entryName_ne_tmpName (key k2 : String) : entryName key ≠ tmpName k2 :=
  fun h => FName.noConfusion h

theorem meta_ne_tmpName (k2 : String) : FName.meta ≠ tmpName k2 :=
  fun h => FName.noConfusion h

/-- Evaluation of `get` on a present entry file whose bytes fail to
deserialize, on the branch where the recovery `unlink` succeeds: the entry
file is unlinked, its metadata record popped, `None` returned — and nothing
else changes (in particular `metadata.pkl` is not rewritten). -/
theorem get_corrupt_eq {α : Type} (s : CacheState α) (now : Nat)
    (key : String) (fi : FileInfo α)
    (hf : lookupAssoc (entryName key) s.files = some fi)
    (hc : fi.content = Content.corrupt) :
    get true now key s =
      (none, { s with files := eraseAssoc (entryName key) s.files,
                      metadata := eraseAssoc (entryName key) s.metadata }) := by
  rw [get]
  rw [hf]
  dsimp only
  rw [hc]
  rfl

/-- Evaluation of `get` on a present entry file that deserializes: the
loaded object is returned, the record refreshed to `now`, the index
persisted. -/
theorem get_ok_eq {α : Type} (s : CacheState α) (now : Nat) (key : String)
    (fi : FileInfo α) (p : PVal α) (uok : Bool)
    (hf : lookupAssoc (entryName key) s.files = some fi)
    (hc : fi.content = Content.ok p) :
    get uok now key s =
      (some p,
        saveMeta now
          { s with metadata := setAssoc (entryName key) now s.metadata }) := by
  rw [get]
  rw [hf]
  dsimp only
  rw [hc]

/-- Evaluation of `put` on the success path. -/
theorem put_ok_eq {α : Type} (s : CacheState α) (cfails : List FName)
    (now : Nat) (key : String) (v : α) (vsize : Nat) :
    put PutFailure.ok cfails now key v vsize s =
      cleanupOldFiles cfails now
        (saveMeta now
          { s with
              files :=
                setAssoc (entryName key) ⟨Content.ok (PVal.val v), vsize, now⟩
                  (eraseAssoc (tmpName key)
                    (setAssoc (tmpName key)
                      ⟨Content.ok (PVal.val v), vsize, now⟩ s.files)),
              metadata := setAssoc (entryName key) now s.metadata }) := rfl

/-- Whatever entry file for `key` survives `put`'s internal eviction pass
holds exactly the value just written. -/
theorem put_ok_entry_content {α : Type} {s : CacheState α}
    {cfails : List FName} {now : Nat} {key : String} {v : α} {vsize : Nat}
    {fi : FileInfo α}
    (h : lookupAssoc (entryName key)
        (put PutFailure.ok cfails now key v vsize s).files = some fi) :
    fi = ⟨Content.ok (PVal.val v), vsize, now⟩ := by
  rw [put_ok_eq] at h
  have h2 := cleanupOldFiles_files_sub cfails now _ (entryName_ne_meta key) h
  rw [lookupAssoc_saveMeta _ _ (entryName_ne_meta key)] at h2
  rw [lookupAssoc_setAssoc_self] at h2
  exact (Option.some_inj.mp h2).symm

/-! ## Claims -/

/-- **C1.** For every key `k` and serializable value `v`, a successful
`put(k, v)` followed by `get(k)`, with no intervening eviction of `k`'s
entry (its file is still present after `put`'s internal eviction pass),
returns exactly the value written: serialization followed by
deserialization of the entry file is the identity on `v`. -/
theorem c1_put_then_get_roundtrip {α : Type} (s : CacheState α)
    (cfails : List FName) (now nowg : Nat) (key : String) (v : α)
    (vsize : Nat) (uok : Bool)
    (hsurvive : lookupAssoc (entryName key)
        (put PutFailure.ok cfails now key v vsize s).files ≠ none) :
    (get uok nowg key (put PutFailure.ok cfails now key v vsize s)).1 =
      some (PVal.val v) := by
  obtain ⟨fi, hfi⟩ := Option.ne_none_iff_exists'.mp hsurvive
  have hfe : fi = ⟨Content.ok (PVal.val v), vsize, now⟩ :=
    put_ok_entry_content hfi
  rw [get_ok_eq _ nowg key fi (PVal.val v) uok hfi (by rw [hfe])]

theorem c1_witness :
    lookupAssoc (entryName "k")
        (put PutFailure.ok [] 1 "k" (7 : Nat) 3 ⟨[], [], 1000⟩).files ≠
      none ∧
    (get true 2 "k" (put PutFailure.ok [] 1 "k" (7 : Nat) 3 ⟨[], [], 1000⟩)).1 =
      some (PVal.val 7) :=
  ⟨by decide, c1_put_then_get_roundtrip ⟨[], [], 1000⟩ [] 1 2 "k" 7 3 true
    (by decide)⟩

/-- **C3, counterexample.** `get` on a corrupted entry deletes the entry
file and pops the in-memory record, but its recovery branch never calls
`_save_metadata`: on this input the in-memory index is empty after the call
while `metadata.pkl` on disk still holds the deleted record — the index was
not persisted, refuting the claim's "persists the metadata index to disk". -/
theorem c3_counterexample :
    (get true 10 "k"
        (⟨[(FName.entry "k", ⟨Content.corrupt, 4, 0⟩),
           (FName.meta, ⟨Content.ok (PVal.dict [(FName.entry "k", 5)]), 0, 0⟩)],
          [(FName.entry "k", 5)], 100⟩ : CacheState Nat)).2.metadata = [] ∧
    lookupAssoc FName.meta
        (get true 10 "k"
          (⟨[(FName.entry "k", ⟨Content.corrupt, 4, 0⟩),
             (FName.meta, ⟨Content.ok (PVal.dict [(FName.entry "k", 5)]), 0, 0⟩)],
            [(FName.entry "k", 5)], 100⟩ : CacheState Nat)).2.files =
      some ⟨Content.ok (PVal.dict [(FName.entry "k", 5)]), 0, 0⟩ := by
  decide

/-- **C3 (amended).** When `get(key)` finds the entry file present but
deserialization fails (and the recovery `unlink` succeeds), it deletes the
entry file, removes the corresponding in-memory metadata record, and
returns `None` without raising; it does **not** persist the metadata index
to disk — everything else in the state, including the on-disk
`metadata.pkl`, is left exactly as it was. -/
theorem c3_get_corruption_selfheal {α : Type} (s : CacheState α) (now : Nat)
    (key : String) (fi : FileInfo α)
    (hf : lookupAssoc (entryName key) s.files = some fi)
    (hc : fi.content = Content.corrupt) :
    get true now key s =
      (none, { s with files := eraseAssoc (entryName key) s.files,
                      metadata := eraseAssoc (entryName key) s.metadata }) :=
  get_corrupt_eq s now key fi hf hc

theorem c3_witness :
    get true 3 "k"
        (⟨[(FName.entry "k", ⟨Content.corrupt, 2, 0⟩)],
          [(FName.entry "k", 1)], 50⟩ : CacheState Nat) =
      (none, ⟨[], [], 50⟩) := by
  rw [c3_get_corruption_selfheal _ 3 "k" ⟨Content.corrupt, 2, 0⟩ (by decide)
    rfl]
  decide

/-- **C4.** If any step of `put(key, value)` before a completed atomic
rename fails (open, serialization, or the rename itself), `put` deletes a
leftover temporary file if one exists and returns normally, leaving the
previously stored entry file for that key (if any) and the metadata index
exactly as they were before the call. -/
theorem c4_put_failure_preserves_state {α : Type} (s : CacheState α)
    (pfail : PutFailure) (cfails : List FName) (now : Nat) (key : String)
    (v : α) (vsize : Nat) (h : pfail ≠ PutFailure.ok) :
    put pfail cfails now key v vsize s =
      { s with files := eraseAssoc (tmpName key) s.files } ∧
    (put pfail cfails now key v vsize s).metadata = s.metadata ∧
    lookupAssoc (entryName key) (put pfail cfails now key v vsize s).files =
      lookupAssoc (entryName key) s.files ∧
    lookupAssoc FName.meta (put pfail cfails now key v vsize s).files =
      lookupAssoc FName.meta s.files := by
  have hput : put pfail cfails now key v vsize s =
      { s with files := eraseAssoc (tmpName key) s.files } := by
    cases pfail with
    | ok => exact absurd rfl h
    | atOpen => rfl
    | atDump => rfl
    | atMove => rfl
  refine ⟨hput, by rw [hput], ?_, ?_⟩
  · rw [hput]
    dsimp only
    rw [lookupAssoc_eraseAssoc]
    simp [entryName_ne_tmpName key key]
  · rw [hput]
    dsimp only
    rw [lookupAssoc_eraseAssoc]
    simp [meta_ne_tmpName key]

theorem c4_witness :
    put PutFailure.atMove [] 3 "k" (9 : Nat) 2
        (⟨[(FName.entry "k", ⟨Content.ok (PVal.val 1), 5, 0⟩),
           (FName.tmp "k", ⟨Content.corrupt, 1, 0⟩)],
          [(FName.entry "k", 2)], 100⟩ : CacheState Nat) =
      { (⟨[(FName.entry "k", ⟨Content.ok (PVal.val 1), 5, 0⟩),
           (FName.tmp "k", ⟨Content.corrupt, 1, 0⟩)],
          [(FName.entry "k", 2)], 100⟩ : CacheState Nat) with
        files := eraseAssoc (tmpName "k")
          [(FName.entry "k", ⟨Content.ok (PVal.val 1), 5, 0⟩),
           (FName.tmp "k", ⟨Content.corrupt, 1, 0⟩)] } :=
  (c4_put_failure_preserves_state _ PutFailure.atMove [] 3 "k" 9 2
    (by decide)).1

/-- **C6, counterexample.** `_load_metadata` performs no type check on a
successfully unpickled object: a metadata file holding a valid pickle of
the integer `7` (an incompatible format) makes it return that integer, not
an empty index — refuting "returns an empty index ... whenever the
persisted index file is ... in an incompatible format". -/
theorem c6_counterexample :
    loadMetadata [(FName.meta, ⟨Content.ok (PVal.val (7 : Nat)), 1, 0⟩)] =
      PVal.val 7 ∧
    PVal.val (7 : Nat) ≠ PVal.dict [] := by
  decide

/-- **C6 (amended).** Loading the metadata index at construction never
propagates an error: it returns an empty index when the persisted index
file is missing or when deserializing it raises (truncated/corrupt bytes),
and when deserialization succeeds it returns the loaded object as-is,
without a type check — so construction always succeeds regardless of the
metadata file's contents, but an incompatible-format file that still
unpickles yields the stored object rather than an empty index. -/
theorem c6_load_metadata_total {α : Type} (d : Dir α) :
    (lookupAssoc FName.meta d = none → loadMetadata d = PVal.dict []) ∧
    (∀ fi : FileInfo α, lookupAssoc FName.meta d = some fi →
      fi.content = Content.corrupt → loadMetadata d = PVal.dict []) ∧
    (∀ (fi : FileInfo α) (p : PVal α), lookupAssoc FName.meta d = some fi →
      fi.content = Content.ok p → loadMetadata d = p) := by
  refine ⟨?_, ?_, ?_⟩
  · intro h
    rw [loadMetadata, h]
  · intro fi h hc
    rw [loadMetadata, h]
    dsimp only
    rw [hc]
  · intro fi p h hc
    rw [loadMetadata, h]
    dsimp only
    rw [hc]

theorem c6_witness :
    loadMetadata ([(FName.meta, ⟨Content.corrupt, 9, 0⟩)] : Dir Nat) =
      PVal.dict [] :=
  (c6_load_metadata_total _).2.1 ⟨Content.corrupt, 9, 0⟩ rfl rfl

/-- **C8.** `find(key)` is a pure existence probe: it returns `true`
exactly when the derived entry file exists.  That it modifies nothing is
by construction of the embedding: the method body only evaluates
`self._get_cache_path(key).exists()`, so `find` is a read-only function
of the state — no entry file, metadata record, recency timestamp or
on-disk index write appears in its definition. -/
theorem c8_find_existence_probe {α : Type} (key : String)
    (s : CacheState α) :
    find key s = true ↔
      ∃ fi, lookupAssoc (entryName key) s.files = some fi := by
  rw [find]
  exact Option.isSome_iff_exists

/-- **C9.** For a key whose entry file exists but fails to deserialize,
`find` returns `true` while `get` returns `None`; after that `get` has run
(deleting the corrupted file), `find` returns `false` — a `true` from
`find` does not guarantee that a subsequent `get` returns a value. -/
theorem c9_find_true_get_absent {α : Type} (s : CacheState α) (key : String)
    (now : Nat) (fi : FileInfo α)
    (hf : lookupAssoc (entryName key) s.files = some fi)
    (hc : fi.content = Content.corrupt) :
    find key s = true ∧ (get true now key s).1 = none ∧
      find key (get true now key s).2 = false := by
  refine ⟨?_, ?_, ?_⟩
  · rw [find, hf]
    rfl
  · rw [get_corrupt_eq s now key fi hf hc]
  · rw [get_corrupt_eq s now key fi hf hc, find]
    dsimp only
    rw [lookupAssoc_eraseAssoc]
    simp

theorem c9_witness :
    find "k" (⟨[(FName.entry "k", ⟨Content.corrupt, 2, 0⟩)], [], 10⟩ :
        CacheState Nat) = true ∧
    (get true 4 "k" (⟨[(FName.entry "k", ⟨Content.corrupt, 2, 0⟩)], [], 10⟩ :
        CacheState Nat)).1 = none ∧
    find "k" (get true 4 "k"
        (⟨[(FName.entry "k", ⟨Content.corrupt, 2, 0⟩)], [], 10⟩ :
          CacheState Nat)).2 = false :=
  c9_find_true_get_absent _ "k" 4 ⟨Content.corrupt, 2, 0⟩ (by decide) rfl

/-! ## Lemmas about `clear` -/

theorem lookupAssoc_mem {β : Type} {n : FName} {b : β}
    {l : List (FName × β)} (h : lookupAssoc n l = some b) : (n, b) ∈ l := by
  induction l with
  | nil => exact absurd h (by simp [lookupAssoc])
  | cons e rest ih =>
    rw [lookupAssoc_cons] at h
    by_cases he : e.1 = n
    · rw [if_pos he] at h
      have : e = (n, b) := by
        cases e
        cases he
        cases Option.some_inj.mp h
        rfl
      rw [← this]
      exact List.mem_cons_self e rest
    · rw [if_neg he] at h
      exact List.mem_cons_of_mem e (ih h)

theorem lookupAssoc_ne_none_of_mem {β : Type} {n : FName} {b : β}
    {l : List (FName × β)} (h : (n, b) ∈ l) : lookupAssoc n l ≠ none := by
  induction l with
  | nil => exact absurd h (by simp)
  | cons e rest ih =>
    rw [lookupAssoc_cons]
    by_cases he : e.1 = n
    · simp [he]
    · rw [if_neg he]
      rcases List.mem_cons.mp h with h1 | h1
      · exact absurd (by rw [← h1]) he
      · exact ih h1

/-- Names not on the glob list are untouched by `clear`'s deletion loop. -/
theorem clearLoop_lookup_notin {α : Type} (fails : List FName) {n : FName} :
    ∀ (ns : List FName) (d : Dir α), n ∉ ns →
      lookupAssoc n (clearLoop fails ns d).1 = lookupAssoc n d := by
  intro ns
  induction ns with
  | nil => intro d _; rfl
  | cons m rest ih =>
    intro d hn
    rw [clearLoop]
    split
    · rfl
    · have h1 : n ∉ rest := fun h => hn (List.mem_cons_of_mem m h)
      have h2 : n ≠ m := fun h => hn (h ▸ List.mem_cons_self m rest)
      rw [ih _ h1, lookupAssoc_eraseAssoc, if_neg h2]

/-- With no failing `unlink`, the loop deletes every listed name and
reports success. -/
theorem clearLoop_nofail {α : Type} :
    ∀ (ns : List FName) (d : Dir α),
      (clearLoop ([] : List FName) ns d).2 = true ∧
      ∀ n ∈ ns, lookupAssoc n (clearLoop ([] : List FName) ns d).1 = none := by
  intro ns
  induction ns with
  | nil => exact fun d => ⟨rfl, by simp⟩
  | cons m rest ih =>
    intro d
    rw [clearLoop]
    rw [if_neg (by simp)]
    refine ⟨(ih _).1, ?_⟩
    intro n hn
    by_cases h1 : n ∈ rest
    · exact (ih _).2 n h1
    · have h2 : n = m := by
        rcases List.mem_cons.mp hn with h | h
        · exact h
        · exact absurd h h1
      rw [clearLoop_lookup_notin _ _ _ h1, lookupAssoc_eraseAssoc,
        if_pos h2]

/-- A listed name whose `unlink` raises makes the loop abort. -/
theorem clearLoop_abort {α : Type} (fails : List FName) {n : FName}
    (hf : n ∈ fails) :
    ∀ (ns : List FName) (d : Dir α), n ∈ ns →
      (clearLoop fails ns d).2 = false := by
  intro ns
  induction ns with
  | nil => intro d h; exact absurd h (by simp)
  | cons m rest ih =>
    intro d hn
    rw [clearLoop]
    by_cases hm : fails.contains m
    · rw [if_pos hm]
    · rw [if_neg hm]
      have h1 : n ≠ m := by
        intro h
        exact hm (List.elem_iff.mpr (h ▸ hf))
      have h2 : n ∈ rest := by
        rcases List.mem_cons.mp hn with h | h
        · exact absurd h h1
        · exact h
      exact ih _ h2

/-- Every name on `clear`'s glob list matches `embedding_*.pkl`. -/
theorem clear_names_glob {α : Type} (s : CacheState α) {n : FName}
    (h : n ∈ (s.files.filter (fun e => matchesGlob e.1)).map
      (fun e => e.1)) : matchesGlob n = true := by
  obtain ⟨e, he, hen⟩ := List.mem_map.mp h
  rw [← hen]
  exact (List.mem_filter.mp he).2

/-- A present entry file's name is on `clear`'s glob list. -/
theorem clear_names_mem {α : Type} (s : CacheState α) {n : FName}
    {fi : FileInfo α} (hmem : (n, fi) ∈ s.files)
    (hg : matchesGlob n = true) :
    n ∈ (s.files.filter (fun e => matchesGlob e.1)).map (fun e => e.1) :=
  List.mem_map.mpr ⟨(n, fi), List.mem_filter.mpr ⟨hmem, hg⟩, rfl⟩

/-- **C5, counterexample.** `clear`'s deletion loop, the dictionary reset
and the index save all sit inside one `try`/`except`: a failing `unlink`
is *not* skipped — it aborts the pass.  On this input the first entry
file's `unlink` raises, after which the second entry file is still present
and the index was neither reset nor persisted, refuting the claim. -/
theorem c5_counterexample :
    lookupAssoc (FName.entry "b")
        (clear [FName.entry "a"] 9
          (⟨[(FName.entry "a", ⟨Content.ok (PVal.val (1 : Nat)), 5, 0⟩),
             (FName.entry "b", ⟨Content.ok (PVal.val 2), 5, 0⟩)],
            [(FName.entry "a", 1), (FName.entry "b", 2)], 100⟩ :
            CacheState Nat)).files ≠ none ∧
    (clear [FName.entry "a"] 9
        (⟨[(FName.entry "a", ⟨Content.ok (PVal.val (1 : Nat)), 5, 0⟩),
           (FName.entry "b", ⟨Content.ok (PVal.val 2), 5, 0⟩)],
          [(FName.entry "a", 1), (FName.entry "b", 2)], 100⟩ :
          CacheState Nat)).metadata ≠ [] := by
  decide

/-- **C5 (amended).** When no individual deletion fails, `clear()` deletes
every entry file, resets the metadata index to empty and persists it, so
that afterwards stats reports zero entries and `find(k)` is false for
every key; but a failure to delete one entry file aborts the pass (the
exception is swallowed): files after the failing one are not deleted and
the index is neither reset nor persisted. -/
theorem c5_clear_empties {α : Type} (s : CacheState α) (now : Nat) :
    (∀ n, matchesGlob n = true →
      lookupAssoc n (clear [] now s).files = none) ∧
    (clear [] now s).metadata = [] ∧
    lookupAssoc FName.meta (clear [] now s).files =
      some ⟨Content.ok (PVal.dict []), 0, now⟩ ∧
    (∀ key, find key (clear [] now s) = false) ∧
    (getCacheInfo (clear [] now s)).filesCount = 0 ∧
    (∀ fails : List FName,
      (∃ n fi, (n, fi) ∈ s.files ∧ matchesGlob n = true ∧ n ∈ fails) →
      (clear fails now s).metadata = s.metadata ∧
      lookupAssoc FName.meta (clear fails now s).files =
        lookupAssoc FName.meta s.files) := by
  have hloop := clearLoop_nofail
    ((s.files.filter (fun e => matchesGlob e.1)).map (fun e => e.1)) s.files
  have hclear : clear ([] : List FName) now s =
      saveMeta now
        { s with
            files := (clearLoop ([] : List FName)
              ((s.files.filter (fun e => matchesGlob e.1)).map
                (fun e => e.1)) s.files).1,
            metadata := [] } := by
    rw [clear]
    rcases hres : clearLoop ([] : List FName)
        ((s.files.filter (fun e => matchesGlob e.1)).map (fun e => e.1))
        s.files with ⟨d, flag⟩
    have hflag : flag = true := by rw [← hloop.1, hres]
    subst hflag
    rw [hres]
  have hgone : ∀ n, matchesGlob n = true →
      lookupAssoc n (clear ([] : List FName) now s).files = none := by
    intro n hg
    rw [hclear, lookupAssoc_saveMeta _ _ (fun h => by rw [h] at hg; cases hg)]
    by_cases hn : n ∈ (s.files.filter (fun e => matchesGlob e.1)).map
        (fun e => e.1)
    · exact hloop.2 n hn
    · rw [clearLoop_lookup_notin _ _ _ hn]
      rcases hl : lookupAssoc n s.files with _ | fi
      · rfl
      · exact absurd (clear_names_mem s (lookupAssoc_mem hl) hg) hn
  refine ⟨hgone, by rw [hclear]; rfl, ?_, ?_, ?_, ?_⟩
  · rw [hclear, saveMeta]
    exact lookupAssoc_setAssoc_self _ _ _
  · intro key
    rw [find, hgone (entryName key) rfl]
    rfl
  · rw [getCacheInfo]
    have hnil : (clear ([] : List FName) now s).files.filter
        (fun e => matchesGlob e.1) = [] := by
      rw [List.filter_eq_nil_iff]
      intro e he
      intro hg
      rcases e with ⟨n, fi⟩
      exact lookupAssoc_ne_none_of_mem he (hgone n hg)
    rw [hnil]
    rfl
  · intro fails ⟨n, fi, hmem, hg, hfl⟩
    have hn := clear_names_mem s hmem hg
    have habort := clearLoop_abort fails hfl
      ((s.files.filter (fun e => matchesGlob e.1)).map (fun e => e.1))
      s.files hn
    have hmeta : (FName.meta : FName) ∉
        (s.files.filter (fun e => matchesGlob e.1)).map (fun e => e.1) := by
      intro h
      cases clear_names_glob s h
    have hclear2 : clear fails now s =
        { s with files := (clearLoop fails
            ((s.files.filter (fun e => matchesGlob e.1)).map
              (fun e => e.1)) s.files).1 } := by
      rw [clear]
      rcases hres : clearLoop fails
          ((s.files.filter (fun e => matchesGlob e.1)).map (fun e => e.1))
          s.files with ⟨d, flag⟩
      have hflag : flag = false := by rw [← habort, hres]
      subst hflag
      rw [hres]
    rw [hclear2]
    exact ⟨rfl, clearLoop_lookup_notin _ _ _ hmeta⟩

theorem c5_witness :
    (clear [] 4
        (⟨[(FName.entry "a", ⟨Content.ok (PVal.val (1 : Nat)), 5, 0⟩)],
          [(FName.entry "a", 1)], 100⟩ : CacheState Nat)).metadata = [] :=
  (c5_clear_empties
    (⟨[(FName.entry "a", ⟨Content.ok (PVal.val (1 : Nat)), 5, 0⟩)],
      [(FName.entry "a", 1)], 100⟩ : CacheState Nat) 4).2.1

/-- **C10.** `clear()` only ever deletes files matching the entry pattern
`embedding_*.pkl`: temporary `embedding_*.tmp` files and the metadata
file do not match the pattern and are never deleted by `clear` (any
non-matching name other than the metadata file is left byte-for-byte
unchanged, and the metadata file — overwritten with an empty index on a
successful pass — never disappears). -/
theorem c10_clear_deletes_only_entries {α : Type} (s : CacheState α)
    (fails : List FName) (now : Nat) :
    (∀ h, matchesGlob (FName.tmp h) = false) ∧
    matchesGlob FName.meta = false ∧
    (∀ n, matchesGlob n = false → n ≠ FName.meta →
      lookupAssoc n (clear fails now s).files = lookupAssoc n s.files) ∧
    (lookupAssoc FName.meta s.files ≠ none →
      lookupAssoc FName.meta (clear fails now s).files ≠ none) := by
  have hnames : ∀ n, matchesGlob n = false →
      n ∉ (s.files.filter (fun e => matchesGlob e.1)).map (fun e => e.1) :=
    fun n hg hn => by rw [clear_names_glob s hn] at hg; cases hg
  refine ⟨fun h => rfl, rfl, ?_, ?_⟩
  · intro n hg hnm
    rw [clear]
    rcases hres : clearLoop fails
        ((s.files.filter (fun e => matchesGlob e.1)).map (fun e => e.1))
        s.files with ⟨d, flag⟩
    have hd : lookupAssoc n d = lookupAssoc n s.files := by
      have := clearLoop_lookup_notin fails
        ((s.files.filter (fun e => matchesGlob e.1)).map (fun e => e.1))
        s.files (hnames n hg)
      rw [hres] at this
      exact this
    rw [hres]
    cases flag
    · exact hd
    · rw [show (saveMeta now { s with
          files := d, metadata := ([] : Meta) }).files =
        setAssoc FName.meta
          ⟨Content.ok (PVal.dict []), 0, now⟩ d from rfl,
        lookupAssoc_setAssoc_ne _ _ hnm]
      exact hd
  · intro hsome
    rw [clear]
    rcases hres : clearLoop fails
        ((s.files.filter (fun e => matchesGlob e.1)).map (fun e => e.1))
        s.files with ⟨d, flag⟩
    have hd : lookupAssoc FName.meta d = lookupAssoc FName.meta s.files := by
      have := clearLoop_lookup_notin fails
        ((s.files.filter (fun e => matchesGlob e.1)).map (fun e => e.1))
        s.files (hnames FName.meta rfl)
      rw [hres] at this
      exact this
    rw [hres]
    cases flag
    · show lookupAssoc FName.meta d ≠ none
      rw [hd]
      exact hsome
    · show lookupAssoc FName.meta
        (setAssoc FName.meta ⟨Content.ok (PVal.dict []), 0, now⟩ d) ≠ none
      rw [lookupAssoc_setAssoc_self]
      exact fun h => Option.noConfusion h

theorem c10_witness :
    lookupAssoc (FName.tmp "t")
        (clear [] 5
          (⟨[(FName.entry "a", ⟨Content.ok (PVal.val (1 : Nat)), 5, 0⟩),
             (FName.tmp "t", ⟨Content.corrupt, 2, 0⟩)], [], 100⟩ :
            CacheState Nat)).files =
      lookupAssoc (FName.tmp "t")
        (⟨[(FName.entry "a", ⟨Content.ok (PVal.val (1 : Nat)), 5, 0⟩),
           (FName.tmp "t", ⟨Content.corrupt, 2, 0⟩)], [], 100⟩ :
          CacheState Nat).files :=
  (c10_clear_deletes_only_entries
    (⟨[(FName.entry "a", ⟨Content.ok (PVal.val (1 : Nat)), 5, 0⟩),
       (FName.tmp "t", ⟨Content.corrupt, 2, 0⟩)], [], 100⟩ :
      CacheState Nat) [] 5).2.2.1 (FName.tmp "t") rfl
    (fun h => FName.noConfusion h)

/-! ## Metadata-timestamp lemmas -/

theorem lookupAssoc_setAssoc_cases {β : Type} {n x : FName} {b t' : β}
    {m : List (FName × β)}
    (h : lookupAssoc n (setAssoc x b m) = some t') :
    (n = x ∧ t' = b) ∨ (n ≠ x ∧ lookupAssoc n m = some t') := by
  by_cases hx : n = x
  · subst hx
    rw [lookupAssoc_setAssoc_self] at h
    exact Or.inl ⟨rfl, (Option.some_inj.mp h).symm⟩
  · rw [lookupAssoc_setAssoc_ne _ _ hx] at h
    exact Or.inr ⟨hx, h⟩

theorem get_miss_eq {α : Type} (uok : Bool) (now : Nat) (key : String)
    (s : CacheState α)
    (h : lookupAssoc (entryName key) s.files = none) :
    get uok now key s = (none, s) := by
  rw [get, h]

theorem get_corrupt_noUnlink_eq {α : Type} (s : CacheState α) (now : Nat)
    (key : String) (fi : FileInfo α)
    (hf : lookupAssoc (entryName key) s.files = some fi)
    (hc : fi.content = Content.corrupt) :
    get false now key s = (none, s) := by
  rw [get, hf]
  dsimp only
  rw [hc]
  rfl

/-- `get` leaves the dictionary alone, refreshes the key's record, or (on
corruption recovery) pops it. -/
theorem get_metadata_cases {α : Type} (uok : Bool) (now : Nat) (key : String)
    (s : CacheState α) :
    (get uok now key s).2.metadata = s.metadata ∨
    (get uok now key s).2.metadata =
      setAssoc (entryName key) now s.metadata ∨
    (get uok now key s).2.metadata =
      eraseAssoc (entryName key) s.metadata := by
  rcases hl : lookupAssoc (entryName key) s.files with _ | fi
  · rw [get_miss_eq uok now key s hl]
    exact Or.inl rfl
  · rcases hc : fi.content with p | _
    · rw [get_ok_eq s now key fi p uok hl hc]
      exact Or.inr (Or.inl rfl)
    · cases uok
      · rw [get_corrupt_noUnlink_eq s now key fi hl hc]
        exact Or.inl rfl
      · rw [get_corrupt_eq s now key fi hl hc]
        exact Or.inr (Or.inr rfl)

/-- Any record present after `put` was either just refreshed to `now` or
carried over unchanged from before the call. -/
theorem put_metadata_sub {α : Type} (pfail : PutFailure) (cfails : List FName)
    (now : Nat) (key : String) (v : α) (vsize : Nat) (s : CacheState α)
    {n : FName} {t' : Nat}
    (h : lookupAssoc n (put pfail cfails now key v vsize s).metadata =
      some t') :
    lookupAssoc n (setAssoc (entryName key) now s.metadata) = some t' ∨
    lookupAssoc n s.metadata = some t' := by
  cases pfail with
  | ok =>
    rw [put_ok_eq] at h
    have h2 := cleanupOldFiles_metadata_sub cfails now _ h
    rw [saveMeta_metadata] at h2
    exact Or.inl h2
  | atOpen => exact Or.inr h
  | atDump => exact Or.inr h
  | atMove => exact Or.inr h

/-- `clear` either empties the dictionary or (on an aborted pass) leaves it
unchanged. -/
theorem clear_metadata_cases {α : Type} (fails : List FName) (now : Nat)
    (s : CacheState α) :
    (clear fails now s).metadata = [] ∨
    (clear fails now s).metadata = s.metadata := by
  rw [clear]
  rcases hres : clearLoop fails
      ((s.files.filter (fun e => matchesGlob e.1)).map (fun e => e.1))
      s.files with ⟨d, flag⟩
  rw [hres]
  cases flag
  · exact Or.inr rfl
  · exact Or.inl rfl

/-- **C7.** Record timestamps are monotonically non-decreasing over a
record's lifetime: with a non-decreasing clock (`t ≤ now` for any
previously written timestamp `t`), no operation lowers an existing
record's timestamp; a `get` that returns a value sets the key's record to
the current time, and a successful `put` sets it to the current time
(unless the eviction pass it triggers deletes the record again, ending its
lifetime). -/
theorem c7_metadata_timestamps_monotone {α : Type} (now : Nat)
    (s : CacheState α) :
    (∀ (op : Op α) (n : FName) (t t' : Nat), t ≤ now →
      lookupAssoc n s.metadata = some t →
      lookupAssoc n (step now op s).metadata = some t' → t ≤ t') ∧
    (∀ (uok : Bool) (key : String) (p : PVal α),
      (get uok now key s).1 = some p →
      lookupAssoc (entryName key) (get uok now key s).2.metadata =
        some now) ∧
    (∀ (cfails : List FName) (key : String) (v : α) (vsize : Nat),
      lookupAssoc (entryName key)
          (put PutFailure.ok cfails now key v vsize s).metadata = some now ∨
      lookupAssoc (entryName key)
          (put PutFailure.ok cfails now key v vsize s).metadata = none) := by
  refine ⟨?_, ?_, ?_⟩
  · intro op n t t' hclk ht h'
    have heq : ∀ m : Meta, m = s.metadata →
        lookupAssoc n m = some t' → t ≤ t' := by
      intro m hm hl
      rw [hm, ht] at hl
      exact le_of_eq (Option.some_inj.mp hl)
    cases op with
    | getOp u k =>
      simp only [step] at h'
      rcases get_metadata_cases u now k s with hm | hm | hm
      · exact heq _ hm h'
      · rw [hm] at h'
        rcases lookupAssoc_setAssoc_cases h' with ⟨_, h2⟩ | ⟨_, h2⟩
        · rw [h2]
          exact hclk
        · rw [ht] at h2
          exact le_of_eq (Option.some_inj.mp h2)
      · rw [hm] at h'
        have h2 := lookupAssoc_eraseAssoc_sub h'
        rw [ht] at h2
        exact le_of_eq (Option.some_inj.mp h2)
    | putOp pf cf k v sz =>
      simp only [step] at h'
      rcases put_metadata_sub pf cf now k v sz s h' with h2 | h2
      · rcases lookupAssoc_setAssoc_cases h2 with ⟨_, h3⟩ | ⟨_, h3⟩
        · rw [h3]
          exact hclk
        · rw [ht] at h3
          exact le_of_eq (Option.some_inj.mp h3)
      · rw [ht] at h2
        exact le_of_eq (Option.some_inj.mp h2)
    | clearOp f =>
      simp only [step] at h'
      rcases clear_metadata_cases f now s with hm | hm
      · rw [hm] at h'
        exact absurd h' (by rw [lookupAssoc]; simp)
      · exact heq _ hm h'
  · intro uok key p hp
    rcases hl : lookupAssoc (entryName key) s.files with _ | fi
    · rw [get_miss_eq uok now key s hl] at hp
      cases hp
    · rcases hc : fi.content with p2 | _
      · rw [get_ok_eq s now key fi p2 uok hl hc]
        exact lookupAssoc_setAssoc_self _ _ _
      · cases uok
        · rw [get_corrupt_noUnlink_eq s now key fi hl hc] at hp
          cases hp
        · rw [get_corrupt_eq s now key fi hl hc] at hp
          cases hp
  · intro cfails key v vsize
    rcases hres : lookupAssoc (entryName key)
        (put PutFailure.ok cfails now key v vsize s).metadata with _ | t'
    · exact Or.inr rfl
    · refine Or.inl ?_
      rw [put_ok_eq] at hres
      have h2 := cleanupOldFiles_metadata_sub cfails now _ hres
      rw [saveMeta_metadata, lookupAssoc_setAssoc_self] at h2
      rw [Option.some_inj.mp h2]

theorem c7_witness :
    (3 : Nat) ≤ 5 :=
  (c7_metadata_timestamps_monotone 5
      (⟨[(FName.entry "a", ⟨Content.ok (PVal.val (1 : Nat)), 2, 0⟩)],
        [(FName.entry "a", 3)], 100⟩ : CacheState Nat)).1
    (Op.getOp true "a") (FName.entry "a") 3 5 (by decide) (by decide)
    (by decide)

/-! ## Lemmas about the eviction pass -/

theorem sumSizes_cons (t : FName × Nat × Nat) (l : List (FName × Nat × Nat)) :
    sumSizes (t :: l) = t.2.1 + sumSizes l := by
  simp [sumSizes]

/-- A no-failure run of the deletion loop erases exactly the names of the
first `evictCount` triples, from both the directory and the dictionary. -/
theorem evictLoop_nofail_eq {α : Type} (total maxB : Nat) :
    ∀ (l : List (FName × Nat × Nat)) (removed : Nat) (st : CacheState α),
      evictLoop ([] : List FName) total maxB l removed st =
        { st with
            files := eraseListAssoc
              ((l.take (evictCount total maxB l removed)).map (fun t => t.1))
              st.files,
            metadata := eraseListAssoc
              ((l.take (evictCount total maxB l removed)).map (fun t => t.1))
              st.metadata } := by
  intro l
  induction l with
  | nil => intro removed st; rfl
  | cons t rest ih =>
    intro removed st
    simp only [evictLoop, evictCount]
    by_cases hcond :
        10 * ((total : Int) - (removed : Int)) ≤ 8 * (maxB : Int)
    · simp only [if_pos hcond]
      rfl
    · simp only [if_neg hcond]
      rw [if_neg (by simp)]
      rw [ih]
      rfl

/-- When the deletion loop stops, either the stop condition holds for the
accumulated `removed_size`, or the whole list was consumed. -/
theorem evictCount_stop (total maxB : Nat) :
    ∀ (l : List (FName × Nat × Nat)) (removed : Nat),
      10 * ((total : Int) - (removed : Int) -
          (sumSizes (l.take (evictCount total maxB l removed)) : Int)) ≤
        8 * (maxB : Int) ∨
      evictCount total maxB l removed = l.length := by
  intro l
  induction l with
  | nil => intro removed; exact Or.inr rfl
  | cons t rest ih =>
    intro removed
    by_cases hcond :
        10 * ((total : Int) - (removed : Int)) ≤ 8 * (maxB : Int)
    · left
      rw [evictCount, if_pos hcond]
      simpa [sumSizes] using hcond
    · rw [evictCount, if_neg hcond]
      rcases ih (removed + t.2.1) with h | h
      · left
        rw [List.take_succ_cons, sumSizes_cons]
        push_cast at h ⊢
        linarith
      · right
        rw [List.length_cons, h]

/-- Before every deletion the loop performed, the stop condition failed:
no file is removed once `total_size - removed_size` is within the target. -/
theorem evictCount_min (total maxB : Nat) :
    ∀ (l : List (FName × Nat × Nat)) (removed k : Nat),
      k < evictCount total maxB l removed →
      ¬ 10 * ((total : Int) - (removed : Int) -
          (sumSizes (l.take k) : Int)) ≤ 8 * (maxB : Int) := by
  intro l
  induction l with
  | nil =>
    intro removed k hk
    rw [evictCount] at hk
    exact absurd hk (Nat.not_lt_zero k)
  | cons t rest ih =>
    intro removed k hk
    rw [evictCount] at hk
    by_cases hcond :
        10 * ((total : Int) - (removed : Int)) ≤ 8 * (maxB : Int)
    · rw [if_pos hcond] at hk
      exact absurd hk (Nat.not_lt_zero k)
    · rw [if_neg hcond] at hk
      cases k with
      | zero =>
        intro hcon
        apply hcond
        simpa [sumSizes] using hcon
      | succ k2 =>
        have hk2 : k2 < evictCount total maxB rest (removed + t.2.1) :=
          Nat.lt_of_succ_lt_succ hk
        have h := ih (removed + t.2.1) k2 hk2
        intro hcon
        apply h
        rw [List.take_succ_cons, sumSizes_cons] at hcon
        push_cast at hcon ⊢
        linarith

theorem insertByTime_perm (t : FName × Nat × Nat) :
    ∀ l, (insertByTime t l).Perm (t :: l) := by
  intro l
  induction l with
  | nil => exact List.Perm.refl _
  | cons u us ih =>
    rw [insertByTime]
    by_cases h : u.2.2 ≤ t.2.2
    · rw [if_pos h]
      exact (ih.cons u).trans (List.Perm.swap t u us)
    · rw [if_neg h]

theorem sortByTime_perm (l : List (FName × Nat × Nat)) :
    (sortByTime l).Perm l := by
  have key : ∀ (l acc : List (FName × Nat × Nat)),
      (l.foldl (fun acc t => insertByTime t acc) acc).Perm (acc ++ l) := by
    intro l
    induction l with
    | nil => intro acc; simp
    | cons t rest ih =>
      intro acc
      rw [List.foldl_cons]
      refine (ih (insertByTime t acc)).trans ?_
      refine (List.Perm.append_right rest (insertByTime_perm t acc)).trans ?_
      exact List.perm_middle.symm
  simpa using key l []

theorem mem_insertByTime {t x : FName × Nat × Nat} :
    ∀ {l}, x ∈ insertByTime t l → x = t ∨ x ∈ l := by
  intro l
  induction l with
  | nil =>
    intro h
    exact Or.inl (List.mem_singleton.mp h)
  | cons u us ih =>
    intro h
    rw [insertByTime] at h
    by_cases hc : u.2.2 ≤ t.2.2
    · rw [if_pos hc] at h
      rcases List.mem_cons.mp h with h1 | h1
      · exact Or.inr (h1 ▸ List.mem_cons_self u us)
      · rcases ih h1 with h2 | h2
        · exact Or.inl h2
        · exact Or.inr (List.mem_cons_of_mem u h2)
    · rw [if_neg hc] at h
      rcases List.mem_cons.mp h with h1 | h1
      · exact Or.inl h1
      · exact Or.inr h1

theorem insertByTime_sorted (t : FName × Nat × Nat) :
    ∀ l, List.Pairwise (fun a b => a.2.2 ≤ b.2.2) l →
      List.Pairwise (fun a b => a.2.2 ≤ b.2.2) (insertByTime t l) := by
  intro l
  induction l with
  | nil => intro _; exact List.pairwise_singleton _ _
  | cons u us ih =>
    intro h
    rw [insertByTime]
    rcases List.pairwise_cons.mp h with ⟨hu, hus⟩
    by_cases hc : u.2.2 ≤ t.2.2
    · rw [if_pos hc]
      refine List.pairwise_cons.mpr ⟨?_, ih hus⟩
      intro x hx
      rcases mem_insertByTime hx with h1 | h1
      · rw [h1]
        exact hc
      · exact hu x h1
    · rw [if_neg hc]
      have htu : t.2.2 ≤ u.2.2 := Nat.le_of_not_le hc
      refine List.pairwise_cons.mpr ⟨?_, h⟩
      intro x hx
      rcases List.mem_cons.mp hx with h1 | h1
      · rw [h1]
        exact htu
      · exact le_trans htu (hu x h1)

theorem sortByTime_sorted (l : List (FName × Nat × Nat)) :
    List.Pairwise (fun a b => a.2.2 ≤ b.2.2) (sortByTime l) := by
  have key : ∀ (l acc : List (FName × Nat × Nat)),
      List.Pairwise (fun a b => a.2.2 ≤ b.2.2) acc →
      List.Pairwise (fun a b => a.2.2 ≤ b.2.2)
        (l.foldl (fun acc t => insertByTime t acc) acc) := by
    intro l
    induction l with
    | nil => intro acc h; exact h
    | cons t rest ih =>
      intro acc h
      exact ih _ (insertByTime_sorted t acc h)
  exact key l [] List.Pairwise.nil

/-- **C2.** The eviction pass is a no-op when the summed size of the entry
files is at most `max_size_bytes`; otherwise (no-failure run) it deletes
entry files in ascending order of recency (metadata timestamp, falling
back to the file's modification time when no record exists — `sortedTriples`
sorts the triples built with exactly that fallback), erasing each deleted
file's metadata record, and persists the index once at the end of the
pass; the deleted files are the shortest oldest-first prefix after whose
removal `total_size - removed_size ≤ max_size_bytes * 0.8` (or the whole
list when even that does not reach the target): the loop stops as soon as
the condition holds and never deletes once it does. -/
theorem c2_eviction_pass {α : Type} (s : CacheState α) (now : Nat)
    (fails : List FName) :
    (totalEntrySize s.files ≤ s.maxSizeBytes →
      cleanupOldFiles fails now s = s) ∧
    (totalEntrySize s.files > s.maxSizeBytes →
      cleanupOldFiles ([] : List FName) now s =
        saveMeta now
          { s with files := eraseListAssoc (evictedNames s) s.files,
                   metadata := eraseListAssoc (evictedNames s) s.metadata }) ∧
    (sortedTriples s).Perm (entryTriples s) ∧
    List.Pairwise (fun a b => a.2.2 ≤ b.2.2) (sortedTriples s) ∧
    (10 * ((totalEntrySize s.files : Int) -
          (sumSizes ((sortedTriples s).take
            (evictCount (totalEntrySize s.files) s.maxSizeBytes
              (sortedTriples s) 0)) : Int)) ≤ 8 * (s.maxSizeBytes : Int) ∨
      evictCount (totalEntrySize s.files) s.maxSizeBytes (sortedTriples s) 0 =
        (sortedTriples s).length) ∧
    (∀ k, k < evictCount (totalEntrySize s.files) s.maxSizeBytes
        (sortedTriples s) 0 →
      ¬ 10 * ((totalEntrySize s.files : Int) -
          (sumSizes ((sortedTriples s).take k) : Int)) ≤
        8 * (s.maxSizeBytes : Int)) := by
  refine ⟨?_, ?_, sortByTime_perm _, sortByTime_sorted _, ?_, ?_⟩
  · intro h
    simp only [cleanupOldFiles]
    rw [if_neg (not_lt.mpr h)]
  · intro h
    simp only [cleanupOldFiles]
    rw [if_pos h]
    rw [evictLoop_nofail_eq]
    rfl
  · rcases evictCount_stop (totalEntrySize s.files) s.maxSizeBytes
        (sortedTriples s) 0 with h | h
    · left
      simpa using h
    · right
      exact h
  · intro k hk
    have h := evictCount_min (totalEntrySize s.files) s.maxSizeBytes
      (sortedTriples s) 0 k hk
    simpa using h

theorem c2_witness :
    totalEntrySize
        ((⟨[(FName.entry "a", ⟨Content.ok (PVal.val (1 : Nat)), 5, 0⟩)],
          [], 100⟩ : CacheState Nat)).files ≤ 100 ∧
    cleanupOldFiles [] 4
        (⟨[(FName.entry "a", ⟨Content.ok (PVal.val (1 : Nat)), 5, 0⟩)],
          [], 100⟩ : CacheState Nat) =
      (⟨[(FName.entry "a", ⟨Content.ok (PVal.val (1 : Nat)), 5, 0⟩)],
        [], 100⟩ : CacheState Nat) :=
  ⟨by decide,
    (c2_eviction_pass
      (⟨[(FName.entry "a", ⟨Content.ok (PVal.val (1 : Nat)), 5, 0⟩)],
        [], 100⟩ : CacheState Nat) 4 []).1 (by decide)⟩

end PersistentCache
